import Mathlib

set_option linter.unusedVariables false

/-!
Shallow embedding of the bubobox/parse-js transformation engine
(`src/transformers/array.js`: the `ArrayTransformer` utility and the
transformers module; `src/unnamed/part_000`: the parser/reverser factory),
together with theorems settling the frozen claims about the spec.

JavaScript values are modelled by the inductive type `JSVal`; JS numbers
are modelled by rationals (the model has no NaN / Infinity values: an
unparseable number is an `Option.none`, which is what `isNaN` observes in
the relevant code paths).  JS objects are insertion-ordered association
lists with unique keys; property assignment (`objSet`) updates an existing
key in place and appends a new one at the end, exactly like JS object
insertion order.
-/

namespace ParseJS

/-- Model of a JavaScript value. -/
inductive JSVal where
  | undef
  | null
  | bool (b : Bool)
  | num (q : ℚ)
  | str (s : String)
  | arr (elems : List JSVal)
  | obj (fields : List (String × JSVal))
  deriving Repr, Inhabited

open JSVal

mutual

def decEqVal : (a b : JSVal) → Decidable (a = b)
  | undef, undef => isTrue rfl
  | null, null => isTrue rfl
  | JSVal.bool a, JSVal.bool b =>
    match decEq a b with
    | isTrue h => isTrue (by rw [h])
    | isFalse h => isFalse (fun hh => h (by cases hh; rfl))
  | num a, num b =>
    match decEq a b with
    | isTrue h => isTrue (by rw [h])
    | isFalse h => isFalse (fun hh => h (by cases hh; rfl))
  | str a, str b =>
    match decEq a b with
    | isTrue h => isTrue (by rw [h])
    | isFalse h => isFalse (fun hh => h (by cases hh; rfl))
  | arr a, arr b =>
    match decEqValList a b with
    | isTrue h => isTrue (by rw [h])
    | isFalse h => isFalse (fun hh => h (by cases hh; rfl))
  | obj a, obj b =>
    match decEqFields a b with
    | isTrue h => isTrue (by rw [h])
    | isFalse h => isFalse (fun hh => h (by cases hh; rfl))
  | undef, null | undef, JSVal.bool _ | undef, num _ | undef, str _
  | undef, arr _ | undef, obj _ => isFalse (by intro h; exact absurd h (by simp))
  | null, undef | null, JSVal.bool _ | null, num _ | null, str _
  | null, arr _ | null, obj _ => isFalse (by intro h; exact absurd h (by simp))
  | JSVal.bool _, undef | JSVal.bool _, null | JSVal.bool _, num _
  | JSVal.bool _, str _ | JSVal.bool _, arr _ | JSVal.bool _, obj _ =>
    isFalse (by intro h; exact absurd h (by simp))
  | num _, undef | num _, null | num _, JSVal.bool _ | num _, str _
  | num _, arr _ | num _, obj _ => isFalse (by intro h; exact absurd h (by simp))
  | str _, undef | str _, null | str _, JSVal.bool _ | str _, num _
  | str _, arr _ | str _, obj _ => isFalse (by intro h; exact absurd h (by simp))
  | arr _, undef | arr _, null | arr _, JSVal.bool _ | arr _, num _
  | arr _, str _ | arr _, obj _ => isFalse (by intro h; exact absurd h (by simp))
  | obj _, undef | obj _, null | obj _, JSVal.bool _ | obj _, num _
  | obj _, str _ | obj _, arr _ => isFalse (by intro h; exact absurd h (by simp))

def decEqValList : (a b : List JSVal) → Decidable (a = b)
  | [], [] => isTrue rfl
  | [], _ :: _ => isFalse (by intro h; exact absurd h (by simp))
  | _ :: _, [] => isFalse (by intro h; exact absurd h (by simp))
  | x :: xs, y :: ys =>
    match decEqVal x y with
    | isTrue h1 =>
      match decEqValList xs ys with
      | isTrue h2 => isTrue (by rw [h1, h2])
      | isFalse h2 => isFalse (fun hh => h2 (by cases hh; rfl))
    | isFalse h1 => isFalse (fun hh => h1 (by cases hh; rfl))

def decEqFields : (a b : List (String × JSVal)) → Decidable (a = b)
  | [], [] => isTrue rfl
  | [], _ :: _ => isFalse (by intro h; exact absurd h (by simp))
  | _ :: _, [] => isFalse (by intro h; exact absurd h (by simp))
  | (k, v) :: xs, (k', v') :: ys =>
    match decEq k k' with
    | isTrue hk =>
      match decEqVal v v' with
      | isTrue h1 =>
        match decEqFields xs ys with
        | isTrue h2 => isTrue (by rw [hk, h1, h2])
        | isFalse h2 => isFalse (fun hh => h2 (by cases hh; rfl))
      | isFalse h1 => isFalse (fun hh => h1 (by cases hh; rfl))
    | isFalse hk => isFalse (fun hh => hk (by cases hh; rfl))

end

instance : DecidableEq JSVal := decEqVal

/-- Property read on a field list: JS `o[k]`, `undefined` when absent. -/
def objGet (fs : List (String × JSVal)) (k : String) : JSVal :=
  match fs with
  | [] => undef
  | (k', v) :: rest => if k' = k then v else objGet rest k

/-- Property write on a field list: JS `o[k] = v` (update in place keeping
insertion order, append when the key is new). -/
def objSet (fs : List (String × JSVal)) (k : String) (v : JSVal) :
    List (String × JSVal) :=
  match fs with
  | [] => [(k, v)]
  | (k', v') :: rest =>
    if k' = k then (k, v) :: rest else (k', v') :: objSet rest k v

/-- Property read on a value: `undefined` on every non-object. -/
def jsIndex (v : JSVal) (k : String) : JSVal :=
  match v with
  | obj fs => objGet fs k
  | _ => undef

/-- JS truthiness (`!!value`).  The model's numbers have no NaN, so the
sole numeric falsy value is 0. -/
def truthy : JSVal → Bool
  | undef => false
  | null => false
  | JSVal.bool b => b
  | num q => decide (q ≠ 0)
  | str s => decide (s ≠ "")
  | arr _ => true
  | obj _ => true

def isArrV : JSVal → Bool
  | arr _ => true
  | _ => false

def isStrV : JSVal → Bool
  | str _ => true
  | _ => false

/-- Modelled from the spec: the string utility `ucfirst` from `utils.js`
(not under `src/`), described there as a simple single-purpose helper —
uppercase the first character. -/
def ucfirst (s : String) : String :=
  match s.data with
  | [] => ""
  | c :: rest => String.mk (c.toUpper :: rest)

/-- Modelled from the spec: the string utility `lcfirst` from `utils.js`
(not under `src/`) — lowercase the first character. -/
def lcfirst (s : String) : String :=
  match s.data with
  | [] => ""
  | c :: rest => String.mk (c.toLower :: rest)

/-- Kernel-reducible suffix test on strings. -/
def endsWithB (s L : String) : Bool :=
  List.isSuffixOf L.data s.data

/-- Kernel-reducible prefix test on strings. -/
def startsWithB (s L : String) : Bool :=
  List.isPrefixOf L.data s.data

/-- Kernel-reducible `String.dropRight`. -/
def dropRightStr (s : String) (n : Nat) : String :=
  String.mk (s.data.take (s.data.length - n))

/-- Kernel-reducible `String.takeRight`. -/
def takeRightStr (s : String) (n : Nat) : String :=
  String.mk (s.data.drop (s.data.length - n))

/-- Kernel-reducible `String.drop`. -/
def dropStr (s : String) (n : Nat) : String :=
  String.mk (s.data.drop n)

/-- JS `String.prototype.split` with a non-empty string separator,
fuel-indexed over the input length so that it is structurally recursive. -/
def jsSplitF : Nat → List Char → List Char → List Char → List (List Char)
  | 0, _, cur, cs => [cur.reverse ++ cs]
  | fuel + 1, sep, cur, cs =>
    if List.isPrefixOf sep cs ∧ ¬sep.isEmpty then
      cur.reverse :: jsSplitF fuel sep [] (cs.drop sep.length)
    else
      match cs with
      | [] => [cur.reverse]
      | c :: rest => jsSplitF fuel sep (c :: cur) rest

def jsSplit (s sep : String) : List String :=
  (jsSplitF (s.data.length + 1) sep.data [] s.data).map String.mk

/-- Modelled from the spec: the string utility `trim` from `utils.js`
(not under `src/`) — strip leading and trailing JS whitespace. -/
def jsTrim (s : String) : String :=
  let ws := fun c : Char =>
    c = ' ' ∨ c = '\t' ∨ c = '\n' ∨ c = '\r' ∨
    c = '\x0b' ∨ c = '\x0c' ∨ c = ' '
  String.mk (((s.data.dropWhile (fun c => decide (ws c))).reverse.dropWhile
    (fun c => decide (ws c))).reverse)

/-- Powers of ten by plain multiplication (kernel-reducible). -/
def pow10 : Nat → Nat
  | 0 => 1
  | n + 1 => 10 * pow10 n

/-- Decimal rendering of a nonnegative rational whose denominator divides a
power of ten; other rationals (unreachable from decimal inputs) render as
`num/den`.  Models JS number-to-string for finite decimal values. -/
def numToStringPos (q : ℚ) : String :=
  if q.den = 1 then toString q.num
  else
    match (List.range 40).find?
        (fun k => (q.num * Int.ofNat (pow10 (k + 1))) % Int.ofNat q.den = 0) with
    | some k =>
      let dcount := k + 1
      let n := q.num.natAbs * pow10 dcount / q.den
      let digits := toString n
      let padded :=
        if digits.length ≤ dcount then
          String.mk (List.replicate (dcount + 1 - digits.length) '0') ++ digits
        else digits
      dropRightStr padded dcount ++ "." ++ takeRightStr padded dcount
    | none => toString q.num ++ "/" ++ toString q.den

/-- Model of JS ToString on numbers (finite decimals; no exponent forms). -/
def numToString (q : ℚ) : String :=
  if q.num < 0 then "-" ++ numToStringPos q.neg else numToStringPos q

/-- Separator-joining of strings (kernel-reducible `intercalate`). -/
def joinStrings (sep : String) : List String → String
  | [] => ""
  | [x] => x
  | x :: y :: rest => x ++ sep ++ joinStrings sep (y :: rest)

mutual

/-- Model of JS ToString (`value + ''` / `String(value)`).  Arrays join
their elements with commas, `null`/`undefined` elements becoming empty
strings; plain objects become "[object Object]". -/
def jsToString : JSVal → String
  | undef => "undefined"
  | null => "null"
  | JSVal.bool b => if b then "true" else "false"
  | num q => numToString q
  | str s => s
  | arr xs => joinStrings "," (jsToStringElems xs)
  | obj _ => "[object Object]"

/-- Elementwise ToString used by `Array.prototype.toString` (which is
`join(',')`): `null` and `undefined` elements become empty strings. -/
def jsToStringElems : List JSVal → List String
  | [] => []
  | v :: rest =>
    (if v = JSVal.null ∨ v = JSVal.undef then "" else jsToString v) ::
      jsToStringElems rest

end

/-! Strict JSON parsing (model of the platform `JSON.parse`), written as a
fuel-indexed recursive-descent parser over the character list. -/

def isJsonWsChar (c : Char) : Bool :=
  c = ' ' ∨ c = '\t' ∨ c = '\n' ∨ c = '\r'

def skipJsonWs (cs : List Char) : List Char :=
  cs.dropWhile isJsonWsChar

def hexVal (c : Char) : Option Nat :=
  if '0' ≤ c ∧ c ≤ '9' then some (c.toNat - '0'.toNat)
  else if 'a' ≤ c ∧ c ≤ 'f' then some (c.toNat - 'a'.toNat + 10)
  else if 'A' ≤ c ∧ c ≤ 'F' then some (c.toNat - 'A'.toNat + 10)
  else none

/-- Body of a JSON string after the opening quote: returns the decoded
characters and the remaining input past the closing quote.  Lone-surrogate
escapes (invalid Unicode scalar values) are rejected by the model. -/
def pStrChars : List Char → Option (List Char × List Char)
  | [] => none
  | '"' :: rest => some ([], rest)
  | '\\' :: esc =>
    match esc with
    | '"' :: rest => (pStrChars rest).map (fun p => ('"' :: p.1, p.2))
    | '\\' :: rest => (pStrChars rest).map (fun p => ('\\' :: p.1, p.2))
    | '/' :: rest => (pStrChars rest).map (fun p => ('/' :: p.1, p.2))
    | 'b' :: rest => (pStrChars rest).map (fun p => ('\x08' :: p.1, p.2))
    | 'f' :: rest => (pStrChars rest).map (fun p => ('\x0c' :: p.1, p.2))
    | 'n' :: rest => (pStrChars rest).map (fun p => ('\n' :: p.1, p.2))
    | 'r' :: rest => (pStrChars rest).map (fun p => ('\r' :: p.1, p.2))
    | 't' :: rest => (pStrChars rest).map (fun p => ('\t' :: p.1, p.2))
    | 'u' :: h1 :: h2 :: h3 :: h4 :: rest =>
      match hexVal h1, hexVal h2, hexVal h3, hexVal h4 with
      | some a, some b, some c, some d =>
        let n := ((a * 16 + b) * 16 + c) * 16 + d
        if n < 0xd800 ∨ (0xdfff < n ∧ n < 0x110000) then
          (pStrChars rest).map (fun p => (Char.ofNat n :: p.1, p.2))
        else none
      | _, _, _, _ => none
    | _ => none
  | c :: rest =>
    if c.toNat < 0x20 then none
    else (pStrChars rest).map (fun p => (c :: p.1, p.2))

def digitsToNat (ds : List Char) : Nat :=
  ds.foldl (fun acc c => acc * 10 + (c.toNat - '0'.toNat)) 0

/-- Strict JSON number grammar: `-? (0 | [1-9][0-9]*) (. [0-9]+)?
([eE] [+-]? [0-9]+)?`, evaluated in ℚ. -/
def pJsonNumber (cs : List Char) : Option (ℚ × List Char) :=
  let (neg, cs1) :=
    match cs with
    | '-' :: rest => (true, rest)
    | _ => (false, cs)
  let intDs := cs1.takeWhile Char.isDigit
  let cs2 := cs1.drop intDs.length
  if intDs = [] then none
  else if intDs.length > 1 ∧ intDs.headD '0' = '0' then none
  else
    let (fracDs, cs3) :=
      match cs2 with
      | '.' :: rest =>
        let f := rest.takeWhile Char.isDigit
        (f, rest.drop f.length)
      | _ => ([], cs2)
    if cs2 ≠ cs3 ∧ fracDs = [] then none
    else
      let (expOk, expNeg, expDs, cs4) :=
        match cs3 with
        | 'e' :: rest | 'E' :: rest =>
          let (en, rest2) :=
            match rest with
            | '+' :: r => (false, r)
            | '-' :: r => (true, r)
            | _ => (false, rest)
          let e := rest2.takeWhile Char.isDigit
          (decide (e ≠ []), en, e, rest2.drop e.length)
        | _ => (true, false, [], cs3)
      if expOk = false then none
      else
        let base : Nat := digitsToNat intDs * pow10 fracDs.length + digitsToNat fracDs
        let e : Nat := digitsToNat expDs
        let q : ℚ :=
          if expNeg then
            mkRat (if neg then Int.neg (Int.ofNat base) else Int.ofNat base)
              (pow10 fracDs.length * pow10 e)
          else
            mkRat (if neg then Int.neg (Int.ofNat (base * pow10 e))
                   else Int.ofNat (base * pow10 e))
              (pow10 fracDs.length)
        some (q, cs4)

mutual

def pJsonVal : Nat → List Char → Option (JSVal × List Char)
  | 0, _ => none
  | fuel + 1, cs =>
    match skipJsonWs cs with
    | 'n' :: 'u' :: 'l' :: 'l' :: rest => some (JSVal.null, rest)
    | 't' :: 'r' :: 'u' :: 'e' :: rest => some (JSVal.bool true, rest)
    | 'f' :: 'a' :: 'l' :: 's' :: 'e' :: rest => some (JSVal.bool false, rest)
    | '"' :: rest =>
      (pStrChars rest).map (fun p => (JSVal.str (String.mk p.1), p.2))
    | '[' :: rest =>
      (match skipJsonWs rest with
       | ']' :: rest2 => some (JSVal.arr [], rest2)
       | _ => (pJsonElems fuel rest).map (fun p => (JSVal.arr p.1, p.2)))
    | '{' :: rest =>
      (match skipJsonWs rest with
       | '}' :: rest2 => some (JSVal.obj [], rest2)
       | _ => (pJsonMembers fuel rest).map (fun p => (JSVal.obj p.1, p.2)))
    | cs' => (pJsonNumber cs').map (fun p => (JSVal.num p.1, p.2))

def pJsonElems : Nat → List Char → Option (List JSVal × List Char)
  | 0, _ => none
  | fuel + 1, cs =>
    match pJsonVal fuel cs with
    | none => none
    | some (v, rest) =>
      match skipJsonWs rest with
      | ',' :: rest2 =>
        (pJsonElems fuel rest2).map (fun p => (v :: p.1, p.2))
      | ']' :: rest2 => some ([v], rest2)
      | _ => none

def pJsonMembers : Nat → List Char → Option (List (String × JSVal) × List Char)
  | 0, _ => none
  | fuel + 1, cs =>
    match skipJsonWs cs with
    | '"' :: rest =>
      match pStrChars rest with
      | none => none
      | some (kcs, rest2) =>
        match skipJsonWs rest2 with
        | ':' :: rest3 =>
          match pJsonVal fuel rest3 with
          | none => none
          | some (v, rest4) =>
            match skipJsonWs rest4 with
            | ',' :: rest5 =>
              (pJsonMembers fuel rest5).map
                (fun p => ((String.mk kcs, v) :: p.1, p.2))
            | '}' :: rest5 => some ([(String.mk kcs, v)], rest5)
            | _ => none
        | _ => none
    | _ => none

end

/-- Model of the platform `JSON.parse` on a string: strict grammar, and
nothing but whitespace may follow the top-level value.  `none` models a
thrown `SyntaxError`. -/
def jsonParse (s : String) : Option JSVal :=
  match pJsonVal (4 * s.length + 8) s.data with
  | some (v, rest) => if skipJsonWs rest = [] then some v else none
  | none => none

def hexDigit (n : Nat) : Char :=
  if n < 10 then Char.ofNat ('0'.toNat + n) else Char.ofNat ('a'.toNat + n - 10)

/-- JSON escaping of one character, as `JSON.stringify` performs it. -/
def quoteJsonChar (c : Char) : String :=
  if c = '"' then "\\\""
  else if c = '\\' then "\\\\"
  else if c = '\n' then "\\n"
  else if c = '\r' then "\\r"
  else if c = '\t' then "\\t"
  else if c = '\x08' then "\\b"
  else if c = '\x0c' then "\\f"
  else if c.toNat < 0x20 then
    "\\u00" ++ String.mk [hexDigit (c.toNat / 16), hexDigit (c.toNat % 16)]
  else String.mk [c]

def concatStrings : List String → String
  | [] => ""
  | x :: rest => x ++ concatStrings rest

def quoteJsonString (s : String) : String :=
  "\"" ++ concatStrings (s.data.map quoteJsonChar) ++ "\""

mutual

/-- Model of the platform `JSON.stringify`: `none` for `undefined` at top
level; inside arrays `undefined` serializes as `null`, and object members
whose value is `undefined` are dropped. -/
def jsonStringify : JSVal → Option String
  | JSVal.undef => none
  | JSVal.null => some "null"
  | JSVal.bool b => some (if b then "true" else "false")
  | JSVal.num q => some (numToString q)
  | JSVal.str s => some (quoteJsonString s)
  | JSVal.arr xs =>
    some ("[" ++ joinStrings "," (jsonStringifyElems xs) ++ "]")
  | JSVal.obj fs =>
    some ("\x7b" ++ joinStrings "," (jsonStringifyMembers fs) ++ "\x7d")

def jsonStringifyElems : List JSVal → List String
  | [] => []
  | v :: rest => (jsonStringify v).getD "null" :: jsonStringifyElems rest

def jsonStringifyMembers : List (String × JSVal) → List String
  | [] => []
  | x :: rest =>
    match jsonStringify x.2 with
    | some sv => (quoteJsonString x.1 ++ ":" ++ sv) :: jsonStringifyMembers rest
    | none => jsonStringifyMembers rest

end

/-- Model of the platform `parseFloat`: skip leading whitespace, optional
sign, decimal digits with optional fraction and exponent; trailing
unparseable characters are ignored.  `none` models NaN (no digits found;
the model omits the `Infinity` literals, which ℚ cannot represent). -/
def parseFloat (s : String) : Option ℚ :=
  let ws := fun c : Char =>
    decide (c = ' ' ∨ c = '\t' ∨ c = '\n' ∨ c = '\r' ∨ c = '\x0b' ∨ c = '\x0c')
  let cs := s.data.dropWhile ws
  let (neg, cs1) :=
    match cs with
    | '-' :: rest => (true, rest)
    | '+' :: rest => (false, rest)
    | _ => (false, cs)
  let intDs := cs1.takeWhile Char.isDigit
  let cs2 := cs1.drop intDs.length
  let (fracDs, cs3) :=
    match cs2 with
    | '.' :: rest =>
      let f := rest.takeWhile Char.isDigit
      (f, rest.drop f.length)
    | _ => ([], cs2)
  if intDs = [] ∧ fracDs = [] then none
  else
    let expPart : Option (Bool × List Char) :=
      match cs3 with
      | 'e' :: rest | 'E' :: rest =>
        let (en, rest2) :=
          match rest with
          | '+' :: r => (false, r)
          | '-' :: r => (true, r)
          | _ => (false, rest)
        let e := rest2.takeWhile Char.isDigit
        if e = [] then none else some (en, e)
      | _ => none
    let base : Nat := digitsToNat intDs * pow10 fracDs.length + digitsToNat fracDs
    let (scaleNum, scaleDen) : Nat × Nat :=
      match expPart with
      | some (en, eDs) =>
        if en then (1, pow10 (digitsToNat eDs)) else (pow10 (digitsToNat eDs), 1)
      | none => (1, 1)
    let n : Nat := base * scaleNum
    some (mkRat (if neg then Int.neg (Int.ofNat n) else Int.ofNat n)
      (pow10 fracDs.length * scaleDen))

/-! ## Scalar coercers (`src/transformers/array.js`, second module) -/

def isSepChar (c : Char) : Bool :=
  c = ',' ∨ c = '.'

/-- On a reversed character list: keep the first separator encountered and
drop every later one.  Composed with two reversals this is the regex
`value.replace(/(,|\.)(?=[^,.]*(\,|\.))/g, '')`: a separator is removed
exactly when another separator occurs later in the string, so only the
last separator survives. -/
def dropSepsAfterFirstRev : List Char → List Char
  | [] => []
  | c :: rest =>
    if isSepChar c then c :: rest.filter (fun x => !isSepChar x)
    else c :: dropSepsAfterFirstRev rest

def removeAllButLastSep (s : String) : String :=
  String.mk ((dropSepsAfterFirstRev s.data.reverse).reverse)

/-- JS `replace(',', '.')` with a string pattern: first occurrence only. -/
def replaceFirstComma : List Char → List Char
  | [] => []
  | c :: rest => if c = ',' then '.' :: rest else c :: replaceFirstComma rest

/-- The separator normalization the `number` coercer applies to strings. -/
def numberNormalize (s : String) : String :=
  String.mk (replaceFirstComma (removeAllButLastSep s).data)

/-- Occurrence count of a character, used to state the separator-stripping
property of the `number` coercer. -/
def countChar (a : Char) : List Char → Nat
  | [] => 0
  | c :: rest => (if c = a then 1 else 0) + countChar a rest

/-- The `number` coercer: `number(value, NaNValue = 0)`. -/
def numberP (value : JSVal) (NaNValue : JSVal) : JSVal :=
  let norm : String :=
    match value with
    | JSVal.str s => numberNormalize s
    | v => jsToString v
  match parseFloat norm with
  | some q => JSVal.num q
  | none => NaNValue

/-- The `boolean` coercer: `boolean(value, defaultValue)`. -/
def booleanP (value : JSVal) (defaultValue : JSVal) : JSVal :=
  if value = JSVal.undef ∧ defaultValue ≠ JSVal.undef then defaultValue
  else
    match value with
    | JSVal.str s => JSVal.bool (s = "1" ∨ s = "true" ∨ s = "yes")
    | v => JSVal.bool (truthy v)

def splitToVals (s sep : String) : List JSVal :=
  (jsSplit s sep).map JSVal.str

/-- Driver step used by the `array` coercer when a per-element parser is
given: `result.map((v, k) => parse(REF k, valueParser, result))` — the
parse driver at the synthetic index path reads element `k` of `result` and
applies the parser to it. -/
def mapElemsDriver (f : JSVal → JSVal) : JSVal → JSVal
  | JSVal.arr xs => JSVal.arr (xs.map f)
  | v => v

/-- The `array` coercer: strict JSON parse first (a successful non-array
parse is discarded and leaves the initial `[]`); on JSON failure a string
with non-empty trimmed content is split on `","`. -/
def arrayP (value : JSVal) (valueParser : Option (JSVal → JSVal)) : JSVal :=
  let parsed := jsonParse (jsToString value)
  let validJson := parsed.isSome
  let result0 : JSVal :=
    match parsed with
    | some r => r
    | none => JSVal.arr []
  let result1 := if validJson ∧ ¬isArrV result0 then JSVal.arr [] else result0
  let result2 :=
    match value with
    | JSVal.str s =>
      if ¬validJson ∧ (jsTrim s).length ≠ 0 then JSVal.arr (splitToVals s ",")
      else result1
    | _ => result1
  match valueParser with
  | some f => mapElemsDriver f result2
  | none => result2

/-- The `json` coercer: best-effort `JSON.parse`, `undefined` on failure. -/
def jsonP (value : JSVal) : JSVal :=
  match jsonParse (jsToString value) with
  | some r => r
  | none => JSVal.undef

/-! ## Multilingual transforms -/

/-- Trailing run of non-dot characters: the match of `/[^\.]+$/` (the JS
code dereferences `exec(...)[0]` and would throw on a path that ends in a
dot; the model totalizes that case to `""`, which no claim exercises). -/
def lastSegment (s : String) : String :=
  String.mk ((s.data.reverse.takeWhile (fun c => c ≠ '.')).reverse)

/-- Key-suffix convention: `ucfirst` for `'camelCase'`, otherwise the
underscore-prefixing function `x => '_' + x`. -/
def langKeyTransform (parseType : String) (lang : String) : String :=
  if parseType = "camelCase" then ucfirst lang else "_" ++ lang

/-- Modelled from the spec: the Path Resolver read path (`get`) from
`parse.js`, which is not under `src/` — navigates dotted segments, returns
`undefined` as soon as a container is missing, never throws; the empty
path addresses the object itself.  Bracket indices are not needed by any
claim and are not modelled. -/
def resolverGet (data : JSVal) (path : String) : JSVal :=
  if path = "" then data
  else (jsSplit path ".").foldl (fun acc seg => jsIndex acc seg) data

/-- Modelled from the spec: the top-level parse driver from `parse.js`
(not under `src/`) — reads the sub-value at `path` via the Resolver and
applies the transform to it. -/
def parseDriver (path : String) (fn : JSVal → JSVal) (data : JSVal) : JSVal :=
  fn (resolverGet data path)

/-- The `multilingual` parse transform. -/
def multilingualP (data : JSVal) (path : String) (valueParser : JSVal → JSVal)
    (parseType : String) (languages : List String) : JSVal :=
  let stem := lastSegment path
  JSVal.obj (languages.foldl (fun values lang =>
    let key := stem ++ langKeyTransform parseType lang
    let value := parseDriver key
      (fun raw => if raw = JSVal.undef then JSVal.undef else valueParser raw)
      data
    if value ≠ JSVal.undef then objSet values lang value else values) [])

/-- Group-1 capture of the regex `([^\.]+)(L1|...|Ln)$` built by
`groupingMultilingual` from the transformed language codes, `none` when the
regex does not match.  The group-1 run contains no dot, so for dot-free
suffixes the whole match lies inside the trailing dot-free run of the key;
the greedy `[^\.]+` makes group 1 as long as possible, i.e. picks the
shortest completing suffix. -/
def execStem (suffixes : List String) (key : String) : Option String :=
  let T := lastSegment key
  let ks := suffixes.filterMap (fun L =>
    if endsWithB T L ∧ L.length < T.length then some L.length else none)
  match ks.min? with
  | some k => some (dropRightStr T k)
  | none => none

/-- Lodash `uniq`: keep the first occurrence of each element. -/
def uniqFirstAux (seen : List String) : List String → List String
  | [] => []
  | k :: rest =>
    if k ∈ seen then uniqFirstAux seen rest
    else k :: uniqFirstAux (k :: seen) rest

/-- The `groupingMultilingual` parse transform.  Its `path` argument is
accepted but unused, as in the source.  The two lodash `.filter()` calls
drop falsy entries: `null` markers and (for regular keys) the empty-string
key. -/
def groupingMultilingualP (data : JSVal) (path : String)
    (valueParser : JSVal → JSVal) (parseType : String)
    (languages : List String) : JSVal :=
  let suffixes := languages.map (langKeyTransform parseType)
  let fields :=
    match data with
    | JSVal.obj fs => fs
    | _ => []
  let keys := fields.map Prod.fst
  let mlKeys := uniqFirstAux [] (keys.filterMap (execStem suffixes))
  let regularKeys := keys.filter
    (fun k => !(execStem suffixes k).isSome && !(k = ""))
  let values := mlKeys.foldl
    (fun r k => objSet r k (multilingualP data k valueParser parseType languages))
    []
  JSVal.obj (regularKeys.foldl (fun r k => objSet r k (objGet fields k)) values)

/-- Modelled from the spec: `reversers.multilingual` composed with the
reverse driver, neither of which is under `src/` — given the grouped
object, re-expand it into sibling keys by re-appending each configured
language's suffix to the path's last segment, running the optional
reverser on each language's value; absent languages contribute nothing. -/
def multilingualR (value : JSVal) (path : String)
    (valueReverser : JSVal → JSVal) (parseType : String)
    (languages : List String) : JSVal :=
  let stem := lastSegment path
  let fields :=
    match value with
    | JSVal.obj fs => fs
    | _ => []
  JSVal.obj (languages.foldl (fun r lang =>
    let v := objGet fields lang
    if v ≠ JSVal.undef then
      objSet r (stem ++ langKeyTransform parseType lang) (valueReverser v)
    else r) [])

/-- Bool test `new RegExp(match).test(key)` for a metacharacter-free
`match` string: containment of `match` in `key`. -/
def strContainsAux (pat : List Char) : List Char → Bool
  | [] => pat.isEmpty
  | c :: rest => pat.isPrefixOf (c :: rest) || strContainsAux pat rest

def strContainsB (hay pat : String) : Bool :=
  strContainsAux pat.data hay.data

/-- Core of `matchKey`: keep the entries whose key passes the test,
building a fresh result object.  A `for..in` over a non-object enumerates
nothing relevant here and yields the empty result. -/
def matchKeyBy (value : JSVal) (test : String → Bool) : JSVal :=
  match value with
  | JSVal.obj fields =>
    JSVal.obj (fields.foldl
      (fun r p => if test p.1 then objSet r p.1 p.2 else r) [])
  | _ => JSVal.obj []

/-- The `matchKey` transform with a literal (metacharacter-free) string
matcher, compiled by the source to a "contains" regex. -/
def matchKeyP (value : JSVal) (m : String) : JSVal :=
  matchKeyBy value (fun k => strContainsB k m)

/-- The `matchPrefixStrip` transform: select keys starting with `m` (regex
`'^' + match`), strip the leading `m` (`key.replace(regex, '')`) and
lowercase the first remaining character. -/
def matchPrefixStripP (value : JSVal) (m : String) : JSVal :=
  let matched :=
    match matchKeyBy value (fun k => startsWithB k m) with
    | JSVal.obj fs => fs
    | _ => []
  JSVal.obj (matched.foldl
    (fun r p => objSet r (lcfirst (dropStr p.1 m.length)) p.2) [])

/-! ## Array Mode Transformer (`src/transformers/array.js`, first module) -/

inductive ATMode where
  | ANY
  | JSON
  | SEPARATOR
  deriving Repr, DecidableEq

structure ArrayTransformer where
  mode : ATMode
  separator : String
  deriving Repr, DecidableEq

/-- The constructor: `this._mode = options.mode || MODE_ANY;
this._separator = options.separator || ','` — a missing (or falsy, i.e.
empty-string) option falls back to the default. -/
def ArrayTransformer.fromOptions (mode : Option ATMode)
    (separator : Option String) : ArrayTransformer :=
  { mode := mode.getD ATMode.ANY,
    separator :=
      match separator with
      | some s => if s = "" then "," else s
      | none => "," }

/-- The `parse` method: early return for arrays, then JSON decoding in
JSON/ANY mode (their local `parseJSON` helper returns `null` on a parse
error), a non-array result is nulled out, and the string form is split on
the separator in SEPARATOR mode or in ANY mode when the result so far is
falsy (i.e. `null`). -/
def ArrayTransformer.parse (t : ArrayTransformer) (value : JSVal) : JSVal :=
  if isArrV value then value
  else
    let s := jsToString value
    let result1 : JSVal :=
      if t.mode = ATMode.JSON ∨ t.mode = ATMode.ANY then
        (jsonParse s).getD JSVal.null
      else value
    let result2 := if ¬isArrV result1 then JSVal.null else result1
    if t.mode = ATMode.SEPARATOR ∨ (t.mode = ATMode.ANY ∧ ¬truthy result2) then
      JSVal.arr (splitToVals s t.separator)
    else result2

/-- JS `Array.prototype.join`: elements stringified, `null` and
`undefined` becoming empty strings. -/
def joinJS (xs : List JSVal) (sep : String) : String :=
  joinStrings sep (xs.map (fun v =>
    if v = JSVal.null ∨ v = JSVal.undef then "" else jsToString v))

def ArrayTransformer.reverse (t : ArrayTransformer) (value : JSVal) : JSVal :=
  match value with
  | JSVal.arr xs =>
    if t.mode = ATMode.JSON ∨ t.mode = ATMode.ANY then
      JSVal.str ((jsonStringify (JSVal.arr xs)).getD "undefined")
    else if t.mode = ATMode.SEPARATOR then JSVal.str (joinJS xs t.separator)
    else value
  | _ => value

/-! ## Parser factory (`src/unnamed/part_000`)

A transform function is modelled together with its attached property bag:
`nestsResult` is `Option Bool` because an unassigned JS property reads as
`undefined`.  The transformers module executes `multilingual.nestsResult =
true` twice — once after `multilingual` and once, verbatim, after
`groupingMultilingual` — so `groupingMultilingual.nestsResult` is never
assigned. -/

structure ParserFn where
  run : JSVal → String → (JSVal → JSVal) → String → List String → JSVal
  nestsResult : Option Bool

def parsersMultilingual : ParserFn :=
  { run := fun data path vp pt langs => multilingualP data path vp pt langs,
    nestsResult := some true }

def parsersGroupingMultilingual : ParserFn :=
  { run := fun data path vp pt langs =>
      groupingMultilingualP data path vp pt langs,
    nestsResult := none }

structure FieldDescriptor where
  run : JSVal → JSVal
  path : String
  nestsResult : Bool

/-- `createParser(path, parser, ...args)`: binds path and fixed arguments;
`p.nestsResult = parser.nestsResult || false`. -/
def createParser (path : String) (parser : ParserFn) (fixedPath : String)
    (vp : JSVal → JSVal) (pt : String) (langs : List String) :
    FieldDescriptor :=
  { run := fun data => parser.run data fixedPath vp pt langs,
    path := path,
    nestsResult := parser.nestsResult.getD false }

/-- The `multilingual` factory from the index module: picks the plain or
grouping parser, defaults `parseType` (the chain `parseType ||
multilingual.TYPE_DEFAULT || multilingual.CAMELCASE` bottoms out at
`undefined`, which the parser's own default turns into camelCase) and the
process-wide `AVAILABLE_LANGUAGES = ['en','nl','fr']`. -/
def multilingualFactory (path : String) (vp : JSVal → JSVal) (group : Bool)
    (parseType : Option String) (languages : Option (List String)) :
    FieldDescriptor :=
  let parser := if group then parsersGroupingMultilingual else parsersMultilingual
  let pt := parseType.getD "camelCase"
  let langs := languages.getD ["en", "nl", "fr"]
  createParser path parser path vp pt langs

/-! ## Store-passing embedding of the parse-direction transforms

For the frame claim the object-building transforms are re-rendered in an
explicit store-passing style: the store is a list of values, the source
object lives in a cell, each transform allocates a fresh cell for its
result object and every JS assignment `r[k] = v` becomes a `writeField`
on that cell, exactly mirroring the statements of the source.  A frame
theorem then states that no pre-existing cell — in particular the source —
is ever modified. -/

def Store : Type := List JSVal

def readCell (st : Store) (i : Nat) : JSVal :=
  List.getD st i JSVal.undef

def storeLen (st : Store) : Nat :=
  List.length st

/-- Allocate a fresh cell holding an empty object (JS `const r = {}`). -/
def allocObj (st : Store) : Store × Nat :=
  (List.append st [JSVal.obj []], storeLen st)

/-- JS `r[k] = v` on the object held in cell `i`. -/
def writeField (st : Store) (i : Nat) (k : String) (v : JSVal) : Store :=
  match readCell st i with
  | JSVal.obj fs => List.set st i (JSVal.obj (objSet fs k v))
  | _ => st

/-- `matchKey` (and its regex-test core), store-passing rendering. -/
def matchKeyByStore (st : Store) (src : Nat) (test : String → Bool) :
    Store × Nat :=
  let fields :=
    match readCell st src with
    | JSVal.obj fs => fs
    | _ => []
  let (st1, r) := allocObj st
  (fields.foldl
    (fun acc p => if test p.1 then writeField acc r p.1 p.2 else acc) st1, r)

def matchKeyStore (st : Store) (src : Nat) (m : String) : Store × Nat :=
  matchKeyByStore st src (fun k => strContainsB k m)

/-- `matchPrefixStrip`, store-passing rendering: the intermediate
`matchKey` result is itself a fresh object. -/
def matchPrefixStripStore (st : Store) (src : Nat) (m : String) :
    Store × Nat :=
  let (st1, mref) := matchKeyByStore st src (fun k => startsWithB k m)
  let matched :=
    match readCell st1 mref with
    | JSVal.obj fs => fs
    | _ => []
  let (st2, r) := allocObj st1
  (matched.foldl
    (fun acc p => writeField acc r (lcfirst (dropStr p.1 m.length)) p.2) st2, r)

/-- `multilingual`, store-passing rendering: the source is re-read from
the current store on every iteration, each hit is written into the fresh
result cell. -/
def multilingualStore (st : Store) (src : Nat) (path : String)
    (valueParser : JSVal → JSVal) (parseType : String)
    (languages : List String) : Store × Nat :=
  let stem := lastSegment path
  let (st1, r) := allocObj st
  (languages.foldl (fun acc lang =>
    let key := stem ++ langKeyTransform parseType lang
    let value := parseDriver key
      (fun raw => if raw = JSVal.undef then JSVal.undef else valueParser raw)
      (readCell acc src)
    if value ≠ JSVal.undef then writeField acc r lang value else acc) st1, r)

/-- `groupingMultilingual`, store-passing rendering: the per-stem grouped
objects are built by `multilingualStore` in cells of their own and their
value is then assigned into the result cell; the pass-through loop re-reads
the source from the current store. -/
def groupingMultilingualStore (st : Store) (src : Nat) (path : String)
    (valueParser : JSVal → JSVal) (parseType : String)
    (languages : List String) : Store × Nat :=
  let suffixes := languages.map (langKeyTransform parseType)
  let keys :=
    match readCell st src with
    | JSVal.obj fs => fs.map Prod.fst
    | _ => []
  let mlKeys := uniqFirstAux [] (keys.filterMap (execStem suffixes))
  let regularKeys := keys.filter
    (fun k => !(execStem suffixes k).isSome && !(k = ""))
  let (st1, r) := allocObj st
  let st2 := mlKeys.foldl (fun acc k =>
    let p := multilingualStore acc src k valueParser parseType languages
    writeField p.1 r k (readCell p.1 p.2)) st1
  (regularKeys.foldl (fun acc k =>
    let srcv :=
      match readCell acc src with
      | JSVal.obj fs => objGet fs k
      | _ => JSVal.undef
    writeField acc r k srcv) st2, r)

/-! ## Helper lemmas -/

theorem objGet_objSet (fs : List (String × JSVal)) (k k' : String) (v : JSVal) :
    objGet (objSet fs k v) k' = if k = k' then v else objGet fs k' := by
  induction fs with
  | nil =>
    simp only [objSet, objGet]
  | cons p rest ih =>
    obtain ⟨k1, v1⟩ := p
    by_cases h1 : k1 = k
    · subst h1
      simp only [objSet, if_pos rfl, objGet]
      by_cases h2 : k1 = k'
      · simp [h2]
      · simp [h2]
    · simp only [objSet, if_neg h1, objGet, ih]
      by_cases h2 : k1 = k'
      · have hkk : ¬k = k' := fun hh => h1 (hh ▸ h2)
        simp [h2, hkk]
      · simp [h2]

theorem foldl_objSet_lookup (items : List String) (g : String → JSVal)
    (acc : List (String × JSVal)) (l : String) :
    objGet (items.foldl (fun r i => objSet r i (g i)) acc) l =
      if l ∈ items then g l else objGet acc l := by
  induction items generalizing acc with
  | nil => simp
  | cons i rest ih =>
    simp only [List.foldl_cons, ih, List.mem_cons]
    by_cases hmem : l ∈ rest
    · simp [hmem]
    · by_cases hli : l = i
      · subst hli
        simp [hmem, objGet_objSet]
      · have hor : ¬(l = i ∨ l ∈ rest) := by
          intro hc
          cases hc with
          | inl h => exact hli h
          | inr h => exact hmem h
        have hil : ¬i = l := fun hh => hli hh.symm
        simp [hmem, hor, objGet_objSet, hil, hli]

theorem foldl_objSet_cond_lookup (items : List String) (g : String → JSVal)
    (acc : List (String × JSVal)) (l : String) :
    objGet (items.foldl
        (fun r i => if g i ≠ JSVal.undef then objSet r i (g i) else r) acc) l =
      if l ∈ items ∧ g l ≠ JSVal.undef then g l else objGet acc l := by
  induction items generalizing acc with
  | nil => simp
  | cons i rest ih =>
    simp only [List.foldl_cons, ih, List.mem_cons]
    by_cases hrest : l ∈ rest ∧ g l ≠ JSVal.undef
    · simp [hrest, hrest.1, hrest.2]
    · by_cases hli : l = i
      · subst hli
        by_cases hg : g l ≠ JSVal.undef
        · simp [hrest, hg, objGet_objSet]
        · simp only [ne_eq, not_not] at hg
          simp [hrest, hg]
      · have hnotor : ¬((l = i ∨ l ∈ rest) ∧ g l ≠ JSVal.undef) := by
          intro hc
          apply hrest
          refine ⟨?_, hc.2⟩
          cases hc.1 with
          | inl h => exact absurd h hli
          | inr h => exact h
        have hil : ¬i = l := fun hh => hli hh.symm
        simp only [hrest, if_false, if_neg hnotor]
        by_cases hgi : g i ≠ JSVal.undef
        · simp [hgi, objGet_objSet, hil]
        · simp [hgi]

theorem mem_uniqFirstAux (seen xs : List String) (x : String) :
    x ∈ uniqFirstAux seen xs ↔ (x ∈ xs ∧ x ∉ seen) := by
  induction xs generalizing seen with
  | nil => simp [uniqFirstAux]
  | cons k rest ih =>
    by_cases hk : k ∈ seen
    · simp only [uniqFirstAux, if_pos hk, ih, List.mem_cons]
      constructor
      · rintro ⟨h1, h2⟩
        exact ⟨Or.inr h1, h2⟩
      · rintro ⟨h1, h2⟩
        refine ⟨?_, h2⟩
        cases h1 with
        | inl h => exact absurd (h ▸ hk) h2
        | inr h => exact h
    · simp only [uniqFirstAux, if_neg hk, List.mem_cons, ih]
      constructor
      · rintro (h | ⟨h1, h2⟩)
        · constructor
          · exact Or.inl h
          · intro hc
            exact hk (h ▸ hc)
        · constructor
          · exact Or.inr h1
          · intro hc
            exact h2 (Or.inr hc)
      · rintro ⟨h1, h2⟩
        cases h1 with
        | inl h => exact Or.inl h
        | inr h =>
          by_cases hxk : x = k
          · exact Or.inl hxk
          · refine Or.inr ⟨h, ?_⟩
            intro hc
            rcases hc with h' | h'
            · exact hxk h'
            · exact h2 h'

theorem countChar_filter_not_sep (l : List Char) (a : Char)
    (h : isSepChar a = true) :
    countChar a (l.filter (fun x => !isSepChar x)) = 0 := by
  induction l with
  | nil => rfl
  | cons c rest ih =>
    by_cases hcs : isSepChar c = true
    · simp [List.filter_cons, hcs, ih]
    · have hca : ¬(c = a) := by
        intro hh
        subst hh
        exact hcs h
      simp [List.filter_cons, hcs, countChar, hca, ih]

theorem dropSeps_count_le (cs : List Char) :
    countChar ',' (dropSepsAfterFirstRev cs)
      + countChar '.' (dropSepsAfterFirstRev cs) ≤ 1 := by
  induction cs with
  | nil => simp [dropSepsAfterFirstRev, countChar]
  | cons c rest ih =>
    by_cases h : isSepChar c = true
    · have hfc := countChar_filter_not_sep rest ',' (by decide)
      have hfd := countChar_filter_not_sep rest '.' (by decide)
      have hc : c = ',' ∨ c = '.' := by simpa [isSepChar] using h
      simp only [dropSepsAfterFirstRev, if_pos h, countChar, hfc, hfd]
      rcases hc with hc | hc <;> subst hc <;> simp
    · have h1 : ¬(c = ',') := by
        intro hh
        subst hh
        exact h (by decide)
      have h2 : ¬(c = '.') := by
        intro hh
        subst hh
        exact h (by decide)
      simp only [dropSepsAfterFirstRev, if_neg h, countChar, h1, h2,
        if_false]
      omega

theorem replaceFirstComma_of_no_comma (l : List Char)
    (h : countChar ',' l = 0) :
    replaceFirstComma l = l := by
  induction l with
  | nil => rfl
  | cons c rest ih =>
    by_cases hc : c = ','
    · subst hc
      simp [countChar] at h
    · simp only [countChar, hc, if_false, Nat.zero_add] at h
      simp only [replaceFirstComma, if_neg hc, ih h]

theorem replaceFirstComma_counts (l : List Char)
    (h : countChar ',' l + countChar '.' l ≤ 1) :
    countChar ',' (replaceFirstComma l) = 0
      ∧ countChar '.' (replaceFirstComma l) ≤ 1 := by
  induction l with
  | nil => exact ⟨rfl, by simp [replaceFirstComma, countChar]⟩
  | cons c rest ih =>
    by_cases hc : c = ','
    · subst hc
      have h1 : countChar ',' (',' :: rest) = 1 + countChar ',' rest := by
        simp [countChar]
      have h2 : countChar '.' (',' :: rest) = countChar '.' rest := by
        simp [countChar]
      rw [h1, h2] at h
      have hcomma : countChar ',' rest = 0 := by omega
      have hdot : countChar '.' rest = 0 := by omega
      have g1 : replaceFirstComma (',' :: rest) = '.' :: rest := by
        simp [replaceFirstComma]
      have g2 : countChar ',' ('.' :: rest) = countChar ',' rest := by
        simp [countChar]
      have g3 : countChar '.' ('.' :: rest) = 1 + countChar '.' rest := by
        simp [countChar]
      rw [g1, g2, g3]
      omega
    · by_cases hd : c = '.'
      · subst hd
        have h1 : countChar ',' ('.' :: rest) = countChar ',' rest := by
          simp [countChar]
        have h2 : countChar '.' ('.' :: rest) = 1 + countChar '.' rest := by
          simp [countChar]
        rw [h1, h2] at h
        have hcrest : countChar ',' rest = 0 := by omega
        have hdrest : countChar '.' rest = 0 := by omega
        have g1 : replaceFirstComma ('.' :: rest)
            = '.' :: replaceFirstComma rest := by
          simp [replaceFirstComma]
        rw [g1, replaceFirstComma_of_no_comma rest hcrest, h1, h2]
        omega
      · have h1 : countChar ',' (c :: rest) = countChar ',' rest := by
          simp [countChar, hc]
        have h2 : countChar '.' (c :: rest) = countChar '.' rest := by
          simp [countChar, hd]
        rw [h1, h2] at h
        obtain ⟨ih1, ih2⟩ := ih h
        have g1 : replaceFirstComma (c :: rest)
            = c :: replaceFirstComma rest := by
          simp [replaceFirstComma, hc]
        have g2 : countChar ',' (c :: replaceFirstComma rest)
            = countChar ',' (replaceFirstComma rest) := by
          simp [countChar, hc]
        have g3 : countChar '.' (c :: replaceFirstComma rest)
            = countChar '.' (replaceFirstComma rest) := by
          simp [countChar, hd]
        rw [g1, g2, g3]
        exact ⟨ih1, ih2⟩

theorem dropSeps_filter (l : List Char) :
    (dropSepsAfterFirstRev l).filter (fun c => !isSepChar c)
      = l.filter (fun c => !isSepChar c) := by
  induction l with
  | nil => rfl
  | cons c rest ih =>
    by_cases h : isSepChar c = true
    · simp [dropSepsAfterFirstRev, List.filter_cons, h, List.filter_filter]
    · simp only [dropSepsAfterFirstRev, if_neg h, List.filter_cons, ih]

theorem replaceFirstComma_filter (l : List Char) :
    (replaceFirstComma l).filter (fun c => !isSepChar c)
      = l.filter (fun c => !isSepChar c) := by
  induction l with
  | nil => rfl
  | cons c rest ih =>
    by_cases hc : c = ','
    · subst hc
      simp [replaceFirstComma, List.filter_cons, isSepChar]
    · simp only [replaceFirstComma, if_neg hc, List.filter_cons, ih]

theorem countChar_append (a : Char) (l1 l2 : List Char) :
    countChar a (l1 ++ l2) = countChar a l1 + countChar a l2 := by
  induction l1 with
  | nil => simp [countChar]
  | cons c rest ih =>
    show (if c = a then 1 else 0) + countChar a (rest ++ l2)
        = ((if c = a then 1 else 0) + countChar a rest) + countChar a l2
    rw [ih]
    omega

theorem countChar_reverse (a : Char) (l : List Char) :
    countChar a l.reverse = countChar a l := by
  induction l with
  | nil => rfl
  | cons c rest ih =>
    simp only [List.reverse_cons, countChar_append, ih, countChar]
    omega

theorem filter_reverse_chars (p : Char → Bool) (l : List Char) :
    l.reverse.filter p = (l.filter p).reverse := by
  induction l with
  | nil => rfl
  | cons c rest ih =>
    simp only [List.reverse_cons, List.filter_append, List.filter_cons,
      ih, List.filter_nil]
    by_cases h : p c = true
    · simp [h]
    · simp [h]

/-! ### Store lemmas for the frame property -/

theorem readCell_append (st : Store) (v : JSVal) (j : Nat)
    (h : j < storeLen st) :
    readCell (List.append st [v]) j = readCell st j :=
  List.getD_append _ _ _ _ h

theorem readCell_set_ne (st : Store) (i j : Nat) (v : JSVal) (h : i ≠ j) :
    readCell (List.set st i v) j = readCell st j := by
  simp only [readCell, List.getD, List.get?_eq_getElem?,
    List.getElem?_set_ne h]

theorem writeField_len (st : Store) (i : Nat) (k : String) (v : JSVal) :
    storeLen (writeField st i k v) = storeLen st := by
  cases hr : readCell st i <;> simp [writeField, hr, storeLen]

theorem writeField_read_ne (st : Store) (i : Nat) (k : String) (v : JSVal)
    (j : Nat) (h : i ≠ j) :
    readCell (writeField st i k v) j = readCell st j := by
  cases hr : readCell st i
  case obj fs =>
    simp only [writeField, hr]
    exact readCell_set_ne st i j _ h
  all_goals simp [writeField, hr]

theorem foldl_preserves_low_cells {α : Type} (step : Store → α → Store)
    (n : Nat)
    (hstep : ∀ acc x, n ≤ storeLen acc →
      n ≤ storeLen (step acc x)
      ∧ ∀ j, j < n → readCell (step acc x) j = readCell acc j) :
    ∀ (xs : List α) (acc : Store), n ≤ storeLen acc →
      n ≤ storeLen (xs.foldl step acc)
      ∧ ∀ j, j < n → readCell (xs.foldl step acc) j = readCell acc j := by
  intro xs
  induction xs with
  | nil =>
    intro acc h
    exact ⟨h, fun j hj => rfl⟩
  | cons x rest ih =>
    intro acc hacc
    obtain ⟨h1, h2⟩ := hstep acc x hacc
    obtain ⟨h3, h4⟩ := ih (step acc x) h1
    exact ⟨h3, fun j hj => (h4 j hj).trans (h2 j hj)⟩

theorem foldl_const_len {α : Type} (step : Store → α → Store)
    (hlen : ∀ acc x, storeLen (step acc x) = storeLen acc) :
    ∀ (xs : List α) (acc : Store), storeLen (xs.foldl step acc) = storeLen acc := by
  intro xs
  induction xs with
  | nil => intro acc; rfl
  | cons x rest ih =>
    intro acc
    exact (ih (step acc x)).trans (hlen acc x)

theorem len_append_one (st : Store) (v : JSVal) :
    storeLen (List.append st [v]) = storeLen st + 1 := by
  simp [storeLen]

theorem multilingualStore_frame (st : Store) (src : Nat) (path : String)
    (vp : JSVal → JSVal) (pt : String) (langs : List String) :
    storeLen ((multilingualStore st src path vp pt langs).1)
      = storeLen st + 1
    ∧ (multilingualStore st src path vp pt langs).2 = storeLen st
    ∧ ∀ j, j < storeLen st →
        readCell ((multilingualStore st src path vp pt langs).1) j
          = readCell st j := by
  have hstep : ∀ (acc : Store) (lang : String), storeLen st ≤ storeLen acc →
      storeLen st ≤ storeLen
        ((fun (acc : Store) (lang : String) =>
          let key := lastSegment path ++ langKeyTransform pt lang
          let value := parseDriver key
            (fun raw => if raw = JSVal.undef then JSVal.undef else vp raw)
            (readCell acc src)
          if value ≠ JSVal.undef then writeField acc (storeLen st) lang value
          else acc) acc lang)
      ∧ ∀ j, j < storeLen st →
          readCell ((fun (acc : Store) (lang : String) =>
            let key := lastSegment path ++ langKeyTransform pt lang
            let value := parseDriver key
              (fun raw => if raw = JSVal.undef then JSVal.undef else vp raw)
              (readCell acc src)
            if value ≠ JSVal.undef then writeField acc (storeLen st) lang value
            else acc) acc lang) j = readCell acc j := by
    intro acc lang hacc
    by_cases hval : parseDriver (lastSegment path ++ langKeyTransform pt lang)
        (fun raw => if raw = JSVal.undef then JSVal.undef else vp raw)
        (readCell acc src) ≠ JSVal.undef
    · constructor
      · simp only [if_pos hval]
        rw [writeField_len]
        exact hacc
      · intro j hj
        simp only [if_pos hval]
        exact writeField_read_ne acc (storeLen st) lang _ j (by omega)
    · constructor
      · simp only [if_neg hval]
        exact hacc
      · intro j hj
        simp only [if_neg hval]
  have hbase : storeLen st ≤ storeLen (List.append st [JSVal.obj []]) := by
    rw [len_append_one]
    omega
  have hfold := foldl_preserves_low_cells _ (storeLen st) hstep langs
    (List.append st [JSVal.obj []]) hbase
  have hlen := foldl_const_len
    (fun (acc : Store) (lang : String) =>
      let key := lastSegment path ++ langKeyTransform pt lang
      let value := parseDriver key
        (fun raw => if raw = JSVal.undef then JSVal.undef else vp raw)
        (readCell acc src)
      if value ≠ JSVal.undef then writeField acc (storeLen st) lang value
      else acc)
    (by
      intro acc lang
      by_cases hval : parseDriver (lastSegment path ++ langKeyTransform pt lang)
          (fun raw => if raw = JSVal.undef then JSVal.undef else vp raw)
          (readCell acc src) ≠ JSVal.undef
      · simp only [if_pos hval]
        exact writeField_len acc (storeLen st) lang _
      · simp only [if_neg hval])
    langs (List.append st [JSVal.obj []])
  refine ⟨?_, rfl, ?_⟩
  · exact hlen.trans (len_append_one st _)
  · intro j hj
    exact (hfold.2 j hj).trans (readCell_append st _ j hj)

theorem matchKeyByStore_frame (st : Store) (src : Nat)
    (test : String → Bool) :
    storeLen ((matchKeyByStore st src test).1) = storeLen st + 1
    ∧ (matchKeyByStore st src test).2 = storeLen st
    ∧ ∀ j, j < storeLen st →
        readCell ((matchKeyByStore st src test).1) j = readCell st j := by
  have hstep : ∀ (acc : Store) (p : String × JSVal),
      storeLen st ≤ storeLen acc →
      storeLen st ≤ storeLen ((fun (acc : Store) (p : String × JSVal) =>
        if test p.1 then writeField acc (storeLen st) p.1 p.2 else acc) acc p)
      ∧ ∀ j, j < storeLen st →
          readCell ((fun (acc : Store) (p : String × JSVal) =>
            if test p.1 then writeField acc (storeLen st) p.1 p.2 else acc)
              acc p) j = readCell acc j := by
    intro acc p hacc
    by_cases ht : test p.1 = true
    · constructor
      · simp only [if_pos ht]
        rw [writeField_len]
        exact hacc
      · intro j hj
        simp only [if_pos ht]
        exact writeField_read_ne acc (storeLen st) p.1 p.2 j (by omega)
    · constructor
      · simp only [if_neg ht]
        exact hacc
      · intro j hj
        simp only [if_neg ht]
  have hlen : ∀ (acc : Store) (p : String × JSVal),
      storeLen ((fun (acc : Store) (p : String × JSVal) =>
        if test p.1 then writeField acc (storeLen st) p.1 p.2 else acc) acc p)
        = storeLen acc := by
    intro acc p
    by_cases ht : test p.1 = true
    · simp only [if_pos ht]
      exact writeField_len acc (storeLen st) p.1 p.2
    · simp only [if_neg ht]
  have hbase : storeLen st ≤ storeLen (List.append st [JSVal.obj []]) := by
    rw [len_append_one]
    omega
  have hfold := foldl_preserves_low_cells _ (storeLen st) hstep
    (match readCell st src with
     | JSVal.obj fs => fs
     | _ => [])
    (List.append st [JSVal.obj []]) hbase
  have hflen := foldl_const_len _ hlen
    (match readCell st src with
     | JSVal.obj fs => fs
     | _ => [])
    (List.append st [JSVal.obj []])
  refine ⟨?_, rfl, ?_⟩
  · exact hflen.trans (len_append_one st _)
  · intro j hj
    exact (hfold.2 j hj).trans (readCell_append st _ j hj)

theorem matchPrefixStripStore_frame (st : Store) (src : Nat) (m : String) :
    (matchPrefixStripStore st src m).2 = storeLen st + 1
    ∧ ∀ j, j < storeLen st →
        readCell ((matchPrefixStripStore st src m).1) j = readCell st j := by
  obtain ⟨hmlen, hmref, hmpres⟩ :=
    matchKeyByStore_frame st src (fun k => startsWithB k m)
  have hstep : ∀ (acc : Store) (p : String × JSVal),
      storeLen st ≤ storeLen acc →
      storeLen st ≤ storeLen ((fun (acc : Store) (p : String × JSVal) =>
        writeField acc (storeLen ((matchKeyByStore st src
            (fun k => startsWithB k m)).1))
          (lcfirst (dropStr p.1 m.length)) p.2) acc p)
      ∧ ∀ j, j < storeLen st →
          readCell ((fun (acc : Store) (p : String × JSVal) =>
            writeField acc (storeLen ((matchKeyByStore st src
                (fun k => startsWithB k m)).1))
              (lcfirst (dropStr p.1 m.length)) p.2) acc p) j
            = readCell acc j := by
    intro acc p hacc
    constructor
    · rw [writeField_len]
      exact hacc
    · intro j hj
      exact writeField_read_ne acc _ _ p.2 j (by rw [hmlen]; omega)
  have hbase : storeLen st ≤ storeLen (List.append
      ((matchKeyByStore st src (fun k => startsWithB k m)).1)
      [JSVal.obj []]) := by
    rw [len_append_one, hmlen]
    omega
  have hfold := foldl_preserves_low_cells _ (storeLen st) hstep
    (match readCell ((matchKeyByStore st src (fun k => startsWithB k m)).1)
        ((matchKeyByStore st src (fun k => startsWithB k m)).2) with
     | JSVal.obj fs => fs
     | _ => [])
    (List.append ((matchKeyByStore st src (fun k => startsWithB k m)).1)
      [JSVal.obj []]) hbase
  constructor
  · show storeLen ((matchKeyByStore st src (fun k => startsWithB k m)).1)
      = storeLen st + 1
    exact hmlen
  · intro j hj
    refine (hfold.2 j hj).trans ?_
    refine (readCell_append _ _ j (by rw [hmlen]; omega)).trans ?_
    exact hmpres j hj

theorem grouping_step1_ok (st : Store) (src : Nat) (vp : JSVal → JSVal)
    (pt : String) (langs : List String) :
    ∀ (acc : Store) (k : String), storeLen st ≤ storeLen acc →
      storeLen st ≤ storeLen (writeField
        (multilingualStore acc src k vp pt langs).1 (storeLen st) k
        (readCell (multilingualStore acc src k vp pt langs).1
          (multilingualStore acc src k vp pt langs).2))
      ∧ ∀ j, j < storeLen st →
          readCell (writeField
            (multilingualStore acc src k vp pt langs).1 (storeLen st) k
            (readCell (multilingualStore acc src k vp pt langs).1
              (multilingualStore acc src k vp pt langs).2)) j
            = readCell acc j := by
  intro acc k hacc
  obtain ⟨hl, hr2, hpres⟩ := multilingualStore_frame acc src k vp pt langs
  constructor
  · rw [writeField_len, hl]
    omega
  · intro j hj
    refine (writeField_read_ne _ (storeLen st) k _ j (by omega)).trans ?_
    exact hpres j (by omega)

theorem grouping_step2_ok (st : Store) (src : Nat) :
    ∀ (acc : Store) (k : String), storeLen st ≤ storeLen acc →
      storeLen st ≤ storeLen (writeField acc (storeLen st) k
        (match readCell acc src with
         | JSVal.obj fs => objGet fs k
         | _ => JSVal.undef))
      ∧ ∀ j, j < storeLen st →
          readCell (writeField acc (storeLen st) k
            (match readCell acc src with
             | JSVal.obj fs => objGet fs k
             | _ => JSVal.undef)) j = readCell acc j := by
  intro acc k hacc
  constructor
  · rw [writeField_len]
    exact hacc
  · intro j hj
    exact writeField_read_ne acc (storeLen st) k _ j (by omega)

theorem groupingMultilingualStore_frame (st : Store) (src : Nat)
    (path : String) (vp : JSVal → JSVal) (pt : String)
    (langs : List String) :
    (groupingMultilingualStore st src path vp pt langs).2 = storeLen st
    ∧ ∀ j, j < storeLen st →
        readCell ((groupingMultilingualStore st src path vp pt langs).1) j
          = readCell st j := by
  have hbase : storeLen st ≤ storeLen (List.append st [JSVal.obj []]) := by
    rw [len_append_one]
    omega
  have hf1 := foldl_preserves_low_cells
    (fun (acc : Store) (k : String) => writeField
      (multilingualStore acc src k vp pt langs).1 (storeLen st) k
      (readCell (multilingualStore acc src k vp pt langs).1
        (multilingualStore acc src k vp pt langs).2))
    (storeLen st) (grouping_step1_ok st src vp pt langs)
    (uniqFirstAux []
      ((match readCell st src with
        | JSVal.obj fs => fs.map Prod.fst
        | _ => []).filterMap (execStem (langs.map (langKeyTransform pt)))))
    (List.append st [JSVal.obj []]) hbase
  have hf2 := foldl_preserves_low_cells
    (fun (acc : Store) (k : String) => writeField acc (storeLen st) k
      (match readCell acc src with
       | JSVal.obj fs => objGet fs k
       | _ => JSVal.undef))
    (storeLen st) (grouping_step2_ok st src)
    ((match readCell st src with
      | JSVal.obj fs => fs.map Prod.fst
      | _ => []).filter
        (fun k => !(execStem (langs.map (langKeyTransform pt)) k).isSome
          && !(k = "")))
    ((uniqFirstAux []
      ((match readCell st src with
        | JSVal.obj fs => fs.map Prod.fst
        | _ => []).filterMap (execStem (langs.map (langKeyTransform pt))))).foldl
      (fun (acc : Store) (k : String) => writeField
        (multilingualStore acc src k vp pt langs).1 (storeLen st) k
        (readCell (multilingualStore acc src k vp pt langs).1
          (multilingualStore acc src k vp pt langs).2))
      (List.append st [JSVal.obj []]))
    hf1.1
  refine ⟨rfl, ?_⟩
  intro j hj
  exact (hf2.2 j hj).trans ((hf1.2 j hj).trans (readCell_append st _ j hj))

/-! ## Claim theorems -/

/-- C1: the claim says descriptors produced by the multilingual factory carry
`nestsResult = true` for both the plain and the grouping variant.  The code
contradicts this for the grouping variant: the flag assignment that follows
`groupingMultilingual`'s definition reads `multilingual.nestsResult = true`
(a verbatim duplicate of the line after `multilingual`), so
`groupingMultilingual.nestsResult` is never assigned and
`createParser`'s `parser.nestsResult || false` yields `false`.  This theorem
evaluates the factory at the failing input `group = true` (and, for
contrast, at `group = false`, where the claim holds). -/
theorem c1_grouping_descriptor_flag :
    (multilingualFactory "title" (fun x => x) true none none).nestsResult = false
    ∧ (multilingualFactory "title" (fun x => x) false none none).nestsResult = true :=
  ⟨rfl, rfl⟩

/-- C2: multilingual round trip — parsing `{titleNl: "x", titleFr: "y"}`
with languages `[nl, fr]` produces `{nl: "x", fr: "y"}`, and reversing that
object with the same path and languages reproduces
`{titleNl: "x", titleFr: "y"}` exactly (same keys, same order). -/
theorem c2_multilingual_roundtrip :
    multilingualP (obj [("titleNl", str "x"), ("titleFr", str "y")]) "title"
        (fun x => x) "camelCase" ["nl", "fr"]
      = obj [("nl", str "x"), ("fr", str "y")]
    ∧ multilingualR (obj [("nl", str "x"), ("fr", str "y")]) "title"
        (fun x => x) "camelCase" ["nl", "fr"]
      = obj [("titleNl", str "x"), ("titleFr", str "y")] := by
  decide

/-- C5 counterexample: the claim says a language's entry appears in the
result exactly when that key's value in the source is present and not
`undefined`.  With a per-value parser that returns `undefined`, the source
key `titleNl` is present and defined, yet the result omits the `nl` entry
entirely — the code keys the presence check on the *parsed* value. -/
theorem c5_counterexample :
    objGet [("titleNl", str "x")] "titleNl" = str "x"
    ∧ multilingualP (obj [("titleNl", str "x")]) "title"
        (fun _ => JSVal.undef) "camelCase" ["nl"] = obj [] := by
  decide

/-- C5 (amended): for every configured language list, `multilingual` builds
per language the candidate key `lastSegment path ++ suffix` (capitalized
code for camelCase, `'_' ++ code` otherwise); a language's entry appears,
keyed by the code with the parsed value, exactly when the source value at
that key is present-and-not-`undefined` AND the parsed value is itself not
`undefined` (with the default identity parser the two conditions coincide);
languages outside the configured list never appear. -/
theorem c5_multilingual_entry_amended (fields : List (String × JSVal))
    (path : String) (vp : JSVal → JSVal) (pt : String) (langs : List String)
    (l : String) :
    (l ∈ langs →
      jsIndex (multilingualP (obj fields) path vp pt langs) l =
        (if resolverGet (obj fields)
              (lastSegment path ++ langKeyTransform pt l) ≠ JSVal.undef
            ∧ vp (resolverGet (obj fields)
              (lastSegment path ++ langKeyTransform pt l)) ≠ JSVal.undef
         then vp (resolverGet (obj fields)
              (lastSegment path ++ langKeyTransform pt l))
         else JSVal.undef))
    ∧ (l ∉ langs →
      jsIndex (multilingualP (obj fields) path vp pt langs) l = JSVal.undef) := by
  have h := foldl_objSet_cond_lookup langs
    (fun lang => parseDriver (lastSegment path ++ langKeyTransform pt lang)
      (fun raw => if raw = JSVal.undef then JSVal.undef else vp raw)
      (obj fields))
    [] l
  constructor
  · intro hmem
    refine Eq.trans h ?_
    by_cases hraw : resolverGet (obj fields)
        (lastSegment path ++ langKeyTransform pt l) = JSVal.undef
    · simp [parseDriver, hraw, hmem, objGet]
    · by_cases hvp : vp (resolverGet (obj fields)
          (lastSegment path ++ langKeyTransform pt l)) = JSVal.undef
      · simp [parseDriver, hraw, hvp, hmem, objGet]
      · simp [parseDriver, hraw, hvp, hmem]
  · intro hmem
    refine Eq.trans h ?_
    simp [hmem, objGet]

/-- C5 witness: the amended theorem applied at a concrete source object,
language list and member/non-member language. -/
theorem c5_witness :
    jsIndex (multilingualP (obj [("titleNl", str "x")]) "title"
      (fun x => x) "camelCase" ["nl"]) "nl" = str "x"
    ∧ jsIndex (multilingualP (obj [("titleNl", str "x")]) "title"
      (fun x => x) "camelCase" ["nl"]) "fr" = JSVal.undef := by
  constructor
  · have h := (c5_multilingual_entry_amended [("titleNl", str "x")] "title"
      (fun x => x) "camelCase" ["nl"] "nl").1 (by decide)
    rw [h]
    decide
  · have h := (c5_multilingual_entry_amended [("titleNl", str "x")] "title"
      (fun x => x) "camelCase" ["nl"] "fr").2 (by decide)
    rw [h]

/-- C4 counterexample: the claim asserts, for every source object, both that
each suffix-matching key is grouped under its prefix as a per-language
object and that every non-matching key is copied through unchanged.  On
`{titleNl: "x", title: 1}` with languages `[nl]` the key `titleNl` matches
(stem `title`), but the pass-through loop runs second and overwrites the
grouped object with the literal `title` key's value, so the result is
`{title: 1}` — the per-language object `{nl: "x"}` is gone. -/
theorem c4_counterexample :
    execStem ["Nl"] "titleNl" = some "title"
    ∧ groupingMultilingualP (obj [("titleNl", str "x"), ("title", num 1)]) ""
        (fun x => x) "camelCase" ["nl"]
      = obj [("title", num 1)] := by
  decide

/-- C4 (amended): `groupingMultilingual` copies every non-matching
(non-empty) key through unchanged, and groups every suffix-matching key
under its stem as the `multilingual` object — provided no pass-through key
coincides with that stem (on such a collision the pass-through value,
written second, overwrites the grouped object).  The claim's concrete
example, which has no collision, evaluates exactly as stated. -/
theorem c4_groupingMultilingual_amended (fields : List (String × JSVal))
    (path : String) (vp : JSVal → JSVal) (pt : String) (langs : List String) :
    (∀ k, k ∈ fields.map Prod.fst →
      execStem (langs.map (langKeyTransform pt)) k = none → k ≠ "" →
      jsIndex (groupingMultilingualP (obj fields) path vp pt langs) k
        = objGet fields k)
    ∧ (∀ k p, k ∈ fields.map Prod.fst →
      execStem (langs.map (langKeyTransform pt)) k = some p →
      (∀ k', k' ∈ fields.map Prod.fst →
        execStem (langs.map (langKeyTransform pt)) k' = none → k' ≠ "" →
        k' ≠ p) →
      jsIndex (groupingMultilingualP (obj fields) path vp pt langs) p
        = multilingualP (obj fields) p vp pt langs)
    ∧ groupingMultilingualP
        (obj [("titleNl", str "x"), ("titleFr", str "y"), ("abc", num 1)]) ""
        (fun x => x) "camelCase" ["nl", "fr"]
      = obj [("title", obj [("nl", str "x"), ("fr", str "y")]),
             ("abc", num 1)] := by
  refine ⟨?_, ?_, by decide⟩
  · intro k hk hstem hne
    have hreg : k ∈ (fields.map Prod.fst).filter
        (fun k => !(execStem (langs.map (langKeyTransform pt)) k).isSome
          && !(k = "")) := by
      refine List.mem_filter.mpr ⟨hk, ?_⟩
      simp [hstem, hne]
    have h2 := foldl_objSet_lookup
      ((fields.map Prod.fst).filter
        (fun k => !(execStem (langs.map (langKeyTransform pt)) k).isSome
          && !(k = "")))
      (fun k => objGet fields k)
      ((uniqFirstAux []
        ((fields.map Prod.fst).filterMap
          (execStem (langs.map (langKeyTransform pt))))).foldl
        (fun r k => objSet r k (multilingualP (obj fields) k vp pt langs)) [])
      k
    refine Eq.trans h2 ?_
    rw [if_pos hreg]
  · intro k p hk hstem hexcl
    have hml : p ∈ uniqFirstAux []
        ((fields.map Prod.fst).filterMap
          (execStem (langs.map (langKeyTransform pt)))) := by
      refine (mem_uniqFirstAux _ _ _).mpr ⟨?_, by simp⟩
      exact List.mem_filterMap.mpr ⟨k, hk, hstem⟩
    have hnreg : p ∉ (fields.map Prod.fst).filter
        (fun k => !(execStem (langs.map (langKeyTransform pt)) k).isSome
          && !(k = "")) := by
      intro hc
      obtain ⟨hpkeys, hpred⟩ := List.mem_filter.mp hc
      simp only [Bool.and_eq_true, Bool.not_eq_true',
        decide_eq_false_iff_not] at hpred
      have hstemnone : execStem (langs.map (langKeyTransform pt)) p = none := by
        cases h' : execStem (langs.map (langKeyTransform pt)) p with
        | none => rfl
        | some q =>
          rw [h'] at hpred
          simp at hpred
      exact hexcl p hpkeys hstemnone hpred.2 rfl
    have h2 := foldl_objSet_lookup
      ((fields.map Prod.fst).filter
        (fun k => !(execStem (langs.map (langKeyTransform pt)) k).isSome
          && !(k = "")))
      (fun k => objGet fields k)
      ((uniqFirstAux []
        ((fields.map Prod.fst).filterMap
          (execStem (langs.map (langKeyTransform pt))))).foldl
        (fun r k => objSet r k (multilingualP (obj fields) k vp pt langs)) [])
      p
    have h1 := foldl_objSet_lookup
      (uniqFirstAux []
        ((fields.map Prod.fst).filterMap
          (execStem (langs.map (langKeyTransform pt)))))
      (fun k => multilingualP (obj fields) k vp pt langs) [] p
    refine Eq.trans h2 ?_
    rw [if_neg hnreg]
    refine Eq.trans h1 ?_
    rw [if_pos hml]

/-- C4 witness: the amended theorem applied at a concrete collision-free
source object, for both a pass-through key and a grouped stem. -/
theorem c4_witness :
    jsIndex (groupingMultilingualP (obj [("titleNl", str "x"), ("abc", num 1)])
      "" (fun x => x) "camelCase" ["nl"]) "abc" = num 1
    ∧ jsIndex (groupingMultilingualP
        (obj [("titleNl", str "x"), ("abc", num 1)])
        "" (fun x => x) "camelCase" ["nl"]) "title"
      = multilingualP (obj [("titleNl", str "x"), ("abc", num 1)]) "title"
          (fun x => x) "camelCase" ["nl"] := by
  constructor
  · have h := (c4_groupingMultilingual_amended
      [("titleNl", str "x"), ("abc", num 1)] "" (fun x => x) "camelCase"
      ["nl"]).1 "abc" (by decide) (by decide) (by decide)
    rw [h]
    decide
  · exact (c4_groupingMultilingual_amended
      [("titleNl", str "x"), ("abc", num 1)] "" (fun x => x) "camelCase"
      ["nl"]).2.1 "titleNl" "title" (by decide) (by decide) (by decide)

/-- C3: the `array` coercer with no per-element parser attempts a strict
JSON parse of the input's string form first; a successful non-array parse
is discarded, yielding `[]` with no comma-split fallback; when the JSON
parse fails and the input is a string with non-empty trimmed content the
result is the split on `","`; an input whose trimmed string is empty
yields `[]`.  The concrete conjuncts are the spec's examples, plus a
JSON-valid-but-non-array payload containing a comma (`"a,b"` in quotes) to
exhibit the discarded parse taking precedence over splitting. -/
theorem c3_array_coercer :
    (∀ v : JSVal, arrayP v none =
      (match jsonParse (jsToString v) with
       | some r => if isArrV r then r else arr []
       | none =>
         match v with
         | str s =>
           if (jsTrim s).length ≠ 0 then arr (splitToVals s ",") else arr []
         | _ => arr []))
    ∧ arrayP (str "[\"a\",\"b\"]") none = arr [str "a", str "b"]
    ∧ arrayP (str "a,b,c") none = arr [str "a", str "b", str "c"]
    ∧ arrayP (str "  ") none = arr []
    ∧ arrayP (str "\"a,b\"") none = arr [] := by
  refine ⟨?_, by decide, by decide, by decide, by decide⟩
  intro v
  cases hj : jsonParse (jsToString v) with
  | some r =>
    cases v <;> simp only [arrayP, hj] <;>
      by_cases ha : isArrV r <;> simp [ha]
  | none =>
    cases v <;> simp [arrayP, hj]

/-- C6: for every string input, the `number` coercer strips all grouping
separators (dots and commas) except the last one, treats that survivor as
the decimal point, and parses the result as a float, returning the
caller-supplied fallback (default 0) when the parse is NaN.  The first
conjunct states the stripping property of the normalization: the
normalized string has no comma, at most one dot, and is otherwise
character-for-character the input (non-separator characters untouched);
the second ties the coercer to `parseFloat` of the normalized string with
the NaN fallback; the last two are the spec's examples
(`number("1.234,56") = 1234.56`, `number("abc", 7) = 7`). -/
theorem c6_number_coercer :
    (∀ s : String,
      countChar ',' (numberNormalize s).data = 0
      ∧ countChar '.' (numberNormalize s).data ≤ 1
      ∧ (numberNormalize s).data.filter (fun c => !isSepChar c)
          = s.data.filter (fun c => !isSepChar c))
    ∧ (∀ (s : String) (d : JSVal), numberP (str s) d =
        (match parseFloat (numberNormalize s) with
         | some q => num q
         | none => d))
    ∧ numberP (str "1.234,56") (num 0) = num (mkRat 123456 100)
    ∧ numberP (str "abc") (num 7) = num 7 := by
  refine ⟨?_, ?_, by decide, by decide⟩
  · intro s
    have hb := dropSeps_count_le s.data.reverse
    have hrev1 := countChar_reverse ',' (dropSepsAfterFirstRev s.data.reverse)
    have hrev2 := countChar_reverse '.' (dropSepsAfterFirstRev s.data.reverse)
    have hle : countChar ',' ((dropSepsAfterFirstRev s.data.reverse).reverse)
        + countChar '.' ((dropSepsAfterFirstRev s.data.reverse).reverse)
          ≤ 1 := by
      rw [hrev1, hrev2]
      exact hb
    obtain ⟨h1, h2⟩ := replaceFirstComma_counts _ hle
    refine ⟨h1, h2, ?_⟩
    calc (numberNormalize s).data.filter (fun c => !isSepChar c)
        = ((dropSepsAfterFirstRev s.data.reverse).reverse).filter
            (fun c => !isSepChar c) := replaceFirstComma_filter _
      _ = ((dropSepsAfterFirstRev s.data.reverse).filter
            (fun c => !isSepChar c)).reverse := filter_reverse_chars _ _
      _ = ((s.data.reverse).filter (fun c => !isSepChar c)).reverse := by
            rw [dropSeps_filter]
      _ = ((s.data.filter (fun c => !isSepChar c)).reverse).reverse := by
            rw [filter_reverse_chars]
      _ = s.data.filter (fun c => !isSepChar c) := List.reverse_reverse _
  · intro s d
    rfl

/-- C7: the `boolean` coercer returns, for string input, true iff the
input case-sensitively equals "1", "true" or "yes"; for non-string,
non-`undefined` input it applies truthiness coercion; when the input is
exactly `undefined` and a default is supplied the default is returned
before any coercion; the spec's three examples evaluate as stated. -/
theorem c7_boolean_coercer :
    (∀ (s : String) (d : JSVal), booleanP (str s) d
        = JSVal.bool (s = "1" ∨ s = "true" ∨ s = "yes"))
    ∧ (∀ (v d : JSVal), isStrV v = false → v ≠ JSVal.undef →
        booleanP v d = JSVal.bool (truthy v))
    ∧ (∀ d : JSVal, d ≠ JSVal.undef → booleanP JSVal.undef d = d)
    ∧ booleanP JSVal.undef JSVal.undef = JSVal.bool false
    ∧ booleanP (str "yes") JSVal.undef = JSVal.bool true
    ∧ booleanP JSVal.undef (JSVal.bool false) = JSVal.bool false
    ∧ booleanP (num 0) JSVal.undef = JSVal.bool false := by
  refine ⟨?_, ?_, ?_, by decide, by decide, by decide, by decide⟩
  · intro s d
    simp [booleanP]
  · intro v d hs hu
    cases v <;> simp_all [booleanP, truthy, isStrV]
  · intro d hd
    simp [booleanP, hd]

/-- C7 witness: the second and third conjuncts of the theorem applied at
concrete non-string and `undefined` inputs. -/
theorem c7_witness :
    booleanP (num 0) (str "dflt") = JSVal.bool false
    ∧ booleanP JSVal.undef (str "dflt") = str "dflt" := by
  constructor
  · have h := c7_boolean_coercer.2.1 (num 0) (str "dflt") (by decide) (by decide)
    rw [h]
    decide
  · exact c7_boolean_coercer.2.2.1 (str "dflt") (by decide)

/-- C8: the `json` coercer is a total function of the input (never
throws): it returns the JSON parse of the input's string form, and
`undefined` whenever that parse fails; in particular a decoded object
structure stringifies to "[object Object]", which is not valid JSON, so
the coercer returns `undefined` on every such input. -/
theorem c8_json_coercer :
    (∀ v : JSVal, jsonP v =
      (match jsonParse (jsToString v) with
       | some r => r
       | none => JSVal.undef))
    ∧ (∀ fs : List (String × JSVal), jsonP (obj fs) = JSVal.undef) := by
  constructor
  · intro v
    rfl
  · intro fs
    have hts : jsToString (obj fs) = "[object Object]" := rfl
    show (match jsonParse (jsToString (obj fs)) with
          | some r => r
          | none => JSVal.undef) = JSVal.undef
    rw [hts]
    decide

/-- C9: the Array Mode Transformer.  The constructor never yields an empty
separator; `parse` returns a list input as-is; in JSON mode it JSON-decodes
the string form keeping only a list-shaped result (`null` otherwise); in
ANY mode it does the same but falls back to splitting on the separator
when the JSON attempt did not yield a list; in SEPARATOR mode it always
splits.  `reverse` passes non-lists through, JSON-encodes lists in
JSON/ANY mode, and joins them on the separator in SEPARATOR mode. -/
theorem c9_array_transformer :
    (∀ (mo : Option ATMode) (so : Option String),
      (ArrayTransformer.fromOptions mo so).separator ≠ "")
    ∧ (∀ (t : ArrayTransformer) (xs : List JSVal),
      t.parse (arr xs) = arr xs)
    ∧ (∀ (t : ArrayTransformer) (v : JSVal), isArrV v = false →
      t.mode = ATMode.JSON →
      t.parse v =
        (match jsonParse (jsToString v) with
         | some (arr xs) => arr xs
         | _ => JSVal.null))
    ∧ (∀ (t : ArrayTransformer) (v : JSVal), isArrV v = false →
      t.mode = ATMode.ANY →
      t.parse v =
        (match jsonParse (jsToString v) with
         | some (arr xs) => arr xs
         | _ => arr (splitToVals (jsToString v) t.separator)))
    ∧ (∀ (t : ArrayTransformer) (v : JSVal), isArrV v = false →
      t.mode = ATMode.SEPARATOR →
      t.parse v = arr (splitToVals (jsToString v) t.separator))
    ∧ (∀ (t : ArrayTransformer) (v : JSVal), isArrV v = false →
      t.reverse v = v)
    ∧ (∀ (t : ArrayTransformer) (xs : List JSVal),
      t.mode = ATMode.JSON ∨ t.mode = ATMode.ANY →
      t.reverse (arr xs) = str ((jsonStringify (arr xs)).getD "undefined"))
    ∧ (∀ (t : ArrayTransformer) (xs : List JSVal),
      t.mode = ATMode.SEPARATOR →
      t.reverse (arr xs) = str (joinJS xs t.separator)) := by
  refine ⟨?_, ?_, ?_, ?_, ?_, ?_, ?_, ?_⟩
  · intro mo so
    cases so with
    | none => simp [ArrayTransformer.fromOptions]
    | some sv =>
      by_cases h : sv = "" <;> simp [ArrayTransformer.fromOptions, h]
  · intro t xs
    simp [ArrayTransformer.parse, isArrV]
  · intro t v hv hm
    simp only [ArrayTransformer.parse, hv, Bool.false_eq_true, if_false, hm]
    cases hj : jsonParse (jsToString v) with
    | none => simp [isArrV]
    | some r => cases r <;> simp [isArrV, truthy]
  · intro t v hv hm
    simp only [ArrayTransformer.parse, hv, Bool.false_eq_true, if_false, hm]
    cases hj : jsonParse (jsToString v) with
    | none => simp [isArrV, truthy]
    | some r => cases r <;> simp [isArrV, truthy]
  · intro t v hv hm
    simp only [ArrayTransformer.parse, hv, Bool.false_eq_true, if_false, hm]
    simp [isArrV, truthy]
  · intro t v hv
    cases v <;> first
      | rfl
      | simp [isArrV] at hv
  · intro t xs hm
    cases hm with
    | inl h => simp [ArrayTransformer.reverse, h]
    | inr h => simp [ArrayTransformer.reverse, h]
  · intro t xs hm
    simp [ArrayTransformer.reverse, hm]

/-- C9 witness: the transformer built from empty options (ANY mode, comma
separator) applied per the theorem's ANY-mode parse conjunct at inputs
where the JSON attempt succeeds and fails, and the reverse conjuncts. -/
theorem c9_witness :
    (ArrayTransformer.fromOptions none none).parse (str "[1,2]")
      = arr [num 1, num 2]
    ∧ (ArrayTransformer.fromOptions none none).parse (str "a,b")
      = arr [str "a", str "b"]
    ∧ (ArrayTransformer.fromOptions (some ATMode.SEPARATOR) (some ";")).reverse
        (arr [str "a", str "b"]) = str "a;b" := by
  refine ⟨?_, ?_, ?_⟩
  · have h := c9_array_transformer.2.2.2.1 (ArrayTransformer.fromOptions none none)
      (str "[1,2]") (by decide) (by decide)
    rw [h]
    decide
  · have h := c9_array_transformer.2.2.2.1 (ArrayTransformer.fromOptions none none)
      (str "a,b") (by decide) (by decide)
    rw [h]
    decide
  · have h := c9_array_transformer.2.2.2.2.2.2.2
      (ArrayTransformer.fromOptions (some ATMode.SEPARATOR) (some ";"))
      [str "a", str "b"] (by decide)
    rw [h]
    decide

/-- C10: frame property of the parse-direction transforms in the
store-passing rendering — `matchKey`, `matchPrefixStrip`, `multilingual`
and `groupingMultilingual` each allocate a fresh cell for their result
object (the returned reference did not exist before the call) and never
modify any pre-existing cell; in particular the source object's cell reads
back unchanged after the call. -/
theorem c10_parse_transforms_frame :
    (∀ (st : Store) (src : Nat) (m : String) (j : Nat), j < storeLen st →
      readCell ((matchKeyStore st src m).1) j = readCell st j)
    ∧ (∀ (st : Store) (src : Nat) (m : String),
      (matchKeyStore st src m).2 = storeLen st)
    ∧ (∀ (st : Store) (src : Nat) (m : String) (j : Nat), j < storeLen st →
      readCell ((matchPrefixStripStore st src m).1) j = readCell st j)
    ∧ (∀ (st : Store) (src : Nat) (m : String),
      (matchPrefixStripStore st src m).2 = storeLen st + 1)
    ∧ (∀ (st : Store) (src : Nat) (path : String) (vp : JSVal → JSVal)
        (pt : String) (langs : List String) (j : Nat), j < storeLen st →
      readCell ((multilingualStore st src path vp pt langs).1) j
        = readCell st j)
    ∧ (∀ (st : Store) (src : Nat) (path : String) (vp : JSVal → JSVal)
        (pt : String) (langs : List String),
      (multilingualStore st src path vp pt langs).2 = storeLen st)
    ∧ (∀ (st : Store) (src : Nat) (path : String) (vp : JSVal → JSVal)
        (pt : String) (langs : List String) (j : Nat), j < storeLen st →
      readCell ((groupingMultilingualStore st src path vp pt langs).1) j
        = readCell st j)
    ∧ (∀ (st : Store) (src : Nat) (path : String) (vp : JSVal → JSVal)
        (pt : String) (langs : List String),
      (groupingMultilingualStore st src path vp pt langs).2 = storeLen st) := by
  refine ⟨?_, ?_, ?_, ?_, ?_, ?_, ?_, ?_⟩
  · intro st src m j hj
    exact (matchKeyByStore_frame st src (fun k => strContainsB k m)).2.2 j hj
  · intro st src m
    exact (matchKeyByStore_frame st src (fun k => strContainsB k m)).2.1
  · intro st src m j hj
    exact (matchPrefixStripStore_frame st src m).2 j hj
  · intro st src m
    exact (matchPrefixStripStore_frame st src m).1
  · intro st src path vp pt langs j hj
    exact (multilingualStore_frame st src path vp pt langs).2.2 j hj
  · intro st src path vp pt langs
    exact (multilingualStore_frame st src path vp pt langs).2.1
  · intro st src path vp pt langs j hj
    exact (groupingMultilingualStore_frame st src path vp pt langs).2 j hj
  · intro st src path vp pt langs
    exact (groupingMultilingualStore_frame st src path vp pt langs).1

/-- C10 witness: the frame theorem applied at a concrete two-cell store
whose cell 0 holds a source object, for `matchKey` and
`groupingMultilingual`. -/
theorem c10_witness :
    readCell ((matchKeyStore [obj [("titleNl", str "x")], str "keep"]
      0 "title").1) 0 = obj [("titleNl", str "x")]
    ∧ readCell ((groupingMultilingualStore
        [obj [("titleNl", str "x")], str "keep"] 0 ""
        (fun x => x) "camelCase" ["nl"]).1) 1 = str "keep" := by
  constructor
  · have h := c10_parse_transforms_frame.1
      [obj [("titleNl", str "x")], str "keep"] 0 "title" 0 (by decide)
    rw [h]
    decide
  · have h := c10_parse_transforms_frame.2.2.2.2.2.2.1
      [obj [("titleNl", str "x")], str "keep"] 0 ""
      (fun x => x) "camelCase" ["nl"] 1 (by decide)
    rw [h]
    decide

end ParseJS
